import Mathlib

/-!
Verification development for the core of the `breeswish/tikv` repository:
the coprocessor utility functions, the DAG request handler, the RPN
expression primitives, the scan-oriented storage adapter, the MVCC key
encoding layer and the grpcworker scheduler/runner.

Rust code is shallowly embedded: byte vectors (`Vec<u8>`) become
`List Nat` with every byte below 256, `u64`/`i64` become `Nat`/`Int`
with explicit wrapping where it matters, fallible code returns
`Option`/`Except`, and stateful code passes its state explicitly.
-/

namespace TikvSpec

/-! ## Byte strings and lexicographic order -/

/-- A byte string (`Vec<u8>` / `&[u8]`); each element is a byte, intended `< 256`. -/
abbrev Bytes := List Nat

/-- Every element is a valid byte (below 256), as enforced by Rust's `u8`. -/
def ValidBytes (x : Bytes) : Prop := ∀ b ∈ x, b < 256

instance : DecidablePred ValidBytes := fun x =>
  List.decidableBAll (fun b => b < 256) x

/-- Strict lexicographic order on byte strings, matching Rust's derived `Ord`
on `Vec<u8>`: compare element-wise, a proper prefix is smaller. -/
def lexLt : Bytes → Bytes → Bool
  | [], [] => false
  | [], _ :: _ => true
  | _ :: _, [] => false
  | a :: x, b :: y => if a < b then true else if b < a then false else lexLt x y

/-! ## `prefix_next` (src/src/coprocessor/util.rs, lines 50-71)

The Rust function copies the key and walks an index from the last byte
towards the front: a `0xFF` byte is set to `0` and the walk continues left;
the first non-`0xFF` byte is incremented and the copy returned; if the walk
falls off the front (every byte was `0xFF`) the original key with `0x00`
appended is returned.  The embedding performs the same walk as structural
recursion over the reversed byte list. -/

/-- The carry walk of `prefix_next` over the reversed key.  `none` means every
byte was `0xFF` and the carry ran off the front (the `i == 0` exit of the
Rust loop); `some r` is the reversed result of the incrementing exit. -/
def prefixNextCore : Bytes → Option Bytes
  | [] => none
  | b :: rest =>
    if b = 255 then (prefixNextCore rest).map (fun r => 0 :: r)
    else some ((b + 1) :: rest)

/-- `prefix_next` from src/src/coprocessor/util.rs.  The empty key hits the
`nk.is_empty()` early exit in Rust and yields `[0]`; here the same result
falls out of the `none` branch. -/
def prefix_next (key : Bytes) : Bytes :=
  match prefixNextCore key.reverse with
  | some r => r.reverse
  | none => key ++ [0]

example : prefix_next [] = [0] := by decide
example : prefix_next [255, 255] = [255, 255, 0] := by decide
example : prefix_next [97, 255] = [98, 0] := by decide
example : prefix_next [0, 255] = [1, 0] := by decide

/-! ### Numeric value of a byte string -/

/-- Base-256 value of a reversed (little-endian) byte string. -/
def valRev : Bytes → Nat
  | [] => 0
  | b :: rest => b + 256 * valRev rest

lemma valRev_append_singleton (m : Bytes) (a : Nat) :
    valRev (m ++ [a]) = valRev m + a * 256 ^ m.length := by
  induction m with
  | nil => simp [valRev]
  | cons b rest ih =>
    rw [List.cons_append]
    show b + 256 * valRev (rest ++ [a]) = b + 256 * valRev rest + a * 256 ^ (b :: rest).length
    rw [ih, List.length_cons]
    ring

lemma valRev_lt_of_valid (l : Bytes) (h : ValidBytes l) :
    valRev l < 256 ^ l.length := by
  induction l with
  | nil => simp [valRev]
  | cons b rest ih =>
    have hb : b < 256 := h b (List.mem_cons_self _ _)
    have hrest : ValidBytes rest := fun c hc => h c (List.mem_cons_of_mem _ hc)
    have := ih hrest
    simp only [valRev, List.length_cons, pow_succ]
    calc b + 256 * valRev rest < 256 + 256 * valRev rest := by omega
      _ = 256 * (valRev rest + 1) := by ring
      _ ≤ 256 * 256 ^ rest.length := by
          exact Nat.mul_le_mul_left 256 (by omega)
      _ = 256 ^ rest.length * 256 := by ring

/-- Big-endian value of a byte string, via its reverse. -/
def valBytes (x : Bytes) : Nat := valRev x.reverse

lemma valBytes_cons (a : Nat) (x : Bytes) :
    valBytes (a :: x) = valBytes x + a * 256 ^ x.length := by
  simp only [valBytes, List.reverse_cons]
  rw [valRev_append_singleton]
  simp

lemma valBytes_lt_of_valid (x : Bytes) (h : ValidBytes x) :
    valBytes x < 256 ^ x.length := by
  have hrev : ValidBytes x.reverse := fun b hb => h b (List.mem_reverse.mp hb)
  have := valRev_lt_of_valid x.reverse hrev
  simpa [valBytes] using this

/-- On equal-length valid byte strings, `lexLt` agrees with numeric order. -/
lemma lexLt_iff_valBytes (x y : Bytes) (hlen : x.length = y.length)
    (hx : ValidBytes x) (hy : ValidBytes y) :
    lexLt x y = true ↔ valBytes x < valBytes y := by
  induction x generalizing y with
  | nil =>
    cases y with
    | nil => simp [lexLt, valBytes, valRev]
    | cons b ys => simp at hlen
  | cons a xs ih =>
    cases y with
    | nil => simp at hlen
    | cons b ys =>
      have hlen' : xs.length = ys.length := by simpa using hlen
      have hxs : ValidBytes xs := fun c hc => hx c (List.mem_cons_of_mem _ hc)
      have hys : ValidBytes ys := fun c hc => hy c (List.mem_cons_of_mem _ hc)
      have hxv := valBytes_lt_of_valid xs hxs
      have hyv := valBytes_lt_of_valid ys hys
      simp only [lexLt, valBytes_cons, hlen']
      rw [hlen'] at hxv
      by_cases hab : a < b
      · rw [if_pos hab]
        have hab1 : a + 1 ≤ b := hab
        have hmul : a * 256 ^ ys.length + 256 ^ ys.length ≤ b * 256 ^ ys.length := by
          calc a * 256 ^ ys.length + 256 ^ ys.length = (a + 1) * 256 ^ ys.length := by ring
            _ ≤ b * 256 ^ ys.length := Nat.mul_le_mul_right _ hab1
        constructor
        · intro _
          omega
        · intro _
          rfl
      · rw [if_neg hab]
        by_cases hba : b < a
        · rw [if_pos hba]
          have hba1 : b + 1 ≤ a := hba
          have hmul : b * 256 ^ ys.length + 256 ^ ys.length ≤ a * 256 ^ ys.length := by
            calc b * 256 ^ ys.length + 256 ^ ys.length = (b + 1) * 256 ^ ys.length := by ring
              _ ≤ a * 256 ^ ys.length := Nat.mul_le_mul_right _ hba1
          constructor
          · intro hfalse
            exact absurd hfalse (by simp)
          · intro hlt
            exfalso
            omega
        · have hba' : a = b := by omega
          subst hba'
          rw [if_neg hba]
          rw [ih ys hlen' hxs hys]
          omega

/-! ### Structure of `prefixNextCore` -/

lemma prefixNextCore_eq_none_iff (l : Bytes) :
    prefixNextCore l = none ↔ ∀ b ∈ l, b = 255 := by
  induction l with
  | nil => simp [prefixNextCore]
  | cons b rest ih =>
    simp only [prefixNextCore]
    by_cases hb : b = 255
    · subst hb
      rw [if_pos rfl]
      constructor
      · intro h c hc
        have hrest : prefixNextCore rest = none := by
          cases hr : prefixNextCore rest with
          | none => rfl
          | some r0 => rw [hr, Option.map_some'] at h; exact Option.noConfusion h
        rcases List.mem_cons.mp hc with h1 | h2
        · exact h1
        · exact (ih.mp hrest) c h2
      · intro h
        have hrest : prefixNextCore rest = none :=
          ih.mpr (fun c hc => h c (List.mem_cons_of_mem _ hc))
        rw [hrest, Option.map_none']
    · rw [if_neg hb]
      constructor
      · intro h
        exact Option.noConfusion h
      · intro h
        exact absurd (h b (List.mem_cons_self _ _)) hb

lemma prefixNextCore_some_length (l r : Bytes) (h : prefixNextCore l = some r) :
    r.length = l.length := by
  induction l generalizing r with
  | nil => exact Option.noConfusion h
  | cons b rest ih =>
    simp only [prefixNextCore] at h
    by_cases hb : b = 255
    · subst hb
      rw [if_pos rfl] at h
      cases hrest : prefixNextCore rest with
      | none =>
        rw [hrest, Option.map_none'] at h
        exact Option.noConfusion h
      | some r0 =>
        rw [hrest, Option.map_some'] at h
        have hr : r = 0 :: r0 := (Option.some_inj.mp h).symm
        subst hr
        simp [ih r0 hrest]
    · rw [if_neg hb] at h
      have hr : r = (b + 1) :: rest := (Option.some_inj.mp h).symm
      subst hr
      simp

lemma prefixNextCore_some_valRev (l r : Bytes) (h : prefixNextCore l = some r) :
    valRev r = valRev l + 1 := by
  induction l generalizing r with
  | nil => exact Option.noConfusion h
  | cons b rest ih =>
    simp only [prefixNextCore] at h
    by_cases hb : b = 255
    · subst hb
      rw [if_pos rfl] at h
      cases hrest : prefixNextCore rest with
      | none =>
        rw [hrest, Option.map_none'] at h
        exact Option.noConfusion h
      | some r0 =>
        rw [hrest, Option.map_some'] at h
        have hr : r = 0 :: r0 := (Option.some_inj.mp h).symm
        subst hr
        simp only [valRev]
        rw [ih r0 hrest]
        ring
    · rw [if_neg hb] at h
      have hr : r = (b + 1) :: rest := (Option.some_inj.mp h).symm
      subst hr
      simp only [valRev]
      omega

lemma prefixNextCore_some_valid (l r : Bytes) (hl : ValidBytes l)
    (h : prefixNextCore l = some r) : ValidBytes r := by
  induction l generalizing r with
  | nil => exact Option.noConfusion h
  | cons b rest ih =>
    have hb256 : b < 256 := hl b (List.mem_cons_self _ _)
    have hrestv : ValidBytes rest := fun c hc => hl c (List.mem_cons_of_mem _ hc)
    simp only [prefixNextCore] at h
    by_cases hb : b = 255
    · subst hb
      rw [if_pos rfl] at h
      cases hrest : prefixNextCore rest with
      | none =>
        rw [hrest, Option.map_none'] at h
        exact Option.noConfusion h
      | some r0 =>
        rw [hrest, Option.map_some'] at h
        have hr : r = 0 :: r0 := (Option.some_inj.mp h).symm
        subst hr
        intro c hc
        rcases List.mem_cons.mp hc with h1 | h2
        · omega
        · exact ih r0 hrestv hrest c h2
    · rw [if_neg hb] at h
      have hr : r = (b + 1) :: rest := (Option.some_inj.mp h).symm
      subst hr
      intro c hc
      rcases List.mem_cons.mp hc with h1 | h2
      · omega
      · exact hrestv c h2

/-! ### Structure of `prefix_next` -/

lemma prefix_next_allFF (x : Bytes) (h : ∀ b ∈ x, b = 255) :
    prefix_next x = x ++ [0] := by
  have hcore : prefixNextCore x.reverse = none :=
    (prefixNextCore_eq_none_iff _).mpr (fun b hb => h b (List.mem_reverse.mp hb))
  unfold prefix_next
  rw [hcore]

lemma prefix_next_not_allFF (x : Bytes) (h : ¬ ∀ b ∈ x, b = 255) :
    (prefix_next x).length = x.length ∧
    valBytes (prefix_next x) = valBytes x + 1 ∧
    (ValidBytes x → ValidBytes (prefix_next x)) := by
  have hrev : ¬ ∀ b ∈ x.reverse, b = 255 := fun hr =>
    h (fun b hb => hr b (List.mem_reverse.mpr hb))
  cases hc : prefixNextCore x.reverse with
  | none => exact absurd ((prefixNextCore_eq_none_iff _).mp hc) hrev
  | some r =>
    have hpn : prefix_next x = r.reverse := by
      unfold prefix_next
      rw [hc]
    have hlen := prefixNextCore_some_length x.reverse r hc
    have hval := prefixNextCore_some_valRev x.reverse r hc
    refine ⟨?_, ?_, ?_⟩
    · rw [hpn]
      simpa using hlen
    · rw [hpn]
      simp only [valBytes, List.reverse_reverse]
      simpa [valBytes] using hval
    · intro hx
      rw [hpn]
      intro c hc'
      have hxrev : ValidBytes x.reverse := fun b hb => hx b (List.mem_reverse.mp hb)
      exact prefixNextCore_some_valid x.reverse r hxrev hc c (List.mem_reverse.mp hc')

/-- A byte string is strictly below any of its proper extensions. -/
lemma lexLt_append_cons (x : Bytes) (c : Nat) (l : Bytes) :
    lexLt x (x ++ c :: l) = true := by
  induction x with
  | nil => rfl
  | cons a xs ih =>
    rw [List.cons_append]
    show (if a < a then true else if a < a then false else lexLt xs (xs ++ c :: l)) = true
    rw [if_neg (lt_irrefl a), if_neg (lt_irrefl a)]
    exact ih

/-- An all-`0xFF` string is maximal among valid byte strings of its length. -/
lemma lexLt_allFF_eq_false (x y : Bytes) (hx : ∀ b ∈ x, b = 255)
    (hlen : y.length = x.length) (hy : ValidBytes y) : lexLt x y = false := by
  induction x generalizing y with
  | nil =>
    cases y with
    | nil => rfl
    | cons b ys => simp at hlen
  | cons a xs ih =>
    cases y with
    | nil => simp at hlen
    | cons b ys =>
      have ha : a = 255 := hx a (List.mem_cons_self _ _)
      have hb : b < 256 := hy b (List.mem_cons_self _ _)
      subst ha
      show (if 255 < b then true else if b < 255 then false else lexLt xs ys) = false
      rw [if_neg (by omega)]
      by_cases hblt : b < 255
      · rw [if_pos hblt]
      · rw [if_neg hblt]
        apply ih
        all_goals first
          | exact fun c hc => hx c (List.mem_cons_of_mem _ hc)
          | simpa using hlen
          | exact fun c hc => hy c (List.mem_cons_of_mem _ hc)

/-- C2 counterexample input: the claim quantifies over every byte string `x`
and asserts that no `y` lies strictly between `x` and `prefix_next x` unless
`x` is all-`0xFF`.  At `x = [0x00]` (not all-`0xFF`), `y = [0x00, 0x00]`
satisfies `x < y < prefix_next x = [0x01]` lexicographically, so the claim
as stated is false. -/
theorem prefix_next_gap_counterexample :
    lexLt [0] [0, 0] = true ∧
    lexLt [0, 0] (prefix_next [0]) = true ∧
    ¬ (∀ b ∈ ([0] : Bytes), b = 255) := by
  refine ⟨by decide, by decide, by decide⟩

/-- C2 (amended): for every valid byte string `x`, `prefix_next x` is strictly
greater than `x` lexicographically, no valid byte string `y` **of the same
length as `x`** lies strictly between `x` and `prefix_next x`, and when `x`
is all-`0xFF` (including the empty string), `prefix_next x = x ++ [0x00]`. -/
theorem prefix_next_is_least_strict_upper (x : Bytes) (hx : ValidBytes x) :
    lexLt x (prefix_next x) = true ∧
    (∀ y : Bytes, y.length = x.length → ValidBytes y →
      ¬ (lexLt x y = true ∧ lexLt y (prefix_next x) = true)) ∧
    ((∀ b ∈ x, b = 255) → prefix_next x = x ++ [0]) := by
  by_cases hall : ∀ b ∈ x, b = 255
  · refine ⟨?_, ?_, fun _ => prefix_next_allFF x hall⟩
    · rw [prefix_next_allFF x hall]
      exact lexLt_append_cons x 0 []
    · intro y hlen hy hcontra
      have := lexLt_allFF_eq_false x y hall hlen hy
      rw [hcontra.1] at this
      exact Bool.noConfusion this
  · obtain ⟨hlen, hval, hvalid⟩ := prefix_next_not_allFF x hall
    have hpnv : ValidBytes (prefix_next x) := hvalid hx
    refine ⟨?_, ?_, fun hall' => absurd hall' hall⟩
    · rw [lexLt_iff_valBytes x (prefix_next x) hlen.symm hx hpnv, hval]
      omega
    · intro y hylen hy hcontra
      have h1 : valBytes x < valBytes y :=
        (lexLt_iff_valBytes x y hylen.symm hx hy).mp hcontra.1
      have h2 : valBytes y < valBytes (prefix_next x) :=
        (lexLt_iff_valBytes y (prefix_next x) (by omega) hy hpnv).mp hcontra.2
      omega

/-- Witness for C2 (amended) at the concrete key `x = [0x00, 0xFF]`. -/
theorem prefix_next_is_least_strict_upper_witness :
    lexLt [0, 255] (prefix_next [0, 255]) = true ∧
    (∀ y : Bytes, y.length = ([0, 255] : Bytes).length → ValidBytes y →
      ¬ (lexLt [0, 255] y = true ∧ lexLt y (prefix_next [0, 255]) = true)) ∧
    ((∀ b ∈ ([0, 255] : Bytes), b = 255) → prefix_next [0, 255] = [0, 255] ++ [0]) :=
  prefix_next_is_least_strict_upper [0, 255] (by decide)

/-! ## C3: the reference successor computation (spec section 3 / 8) -/

/-- The carry walk of the spec's reference successor, on the reversed key:
"increment the last byte, carrying (setting `0xFF` bytes to `0x00` and
moving left) on `0xFF`". -/
def specIncrLast : Bytes → Bytes
  | [] => []
  | b :: rest => if b = 255 then 0 :: specIncrLast rest else (b + 1) :: rest

/-- The reference successor computation as the spec words it: "append `0x00`
when the input is empty; otherwise increment the last byte, carrying ... on
`0xFF`; if every byte is `0xFF`, return the original string with `0x00`
appended". -/
def specPrefixNext (key : Bytes) : Bytes :=
  if key = [] then [0]
  else if ∀ b ∈ key, b = 255 then key ++ [0]
  else (specIncrLast key.reverse).reverse

lemma prefixNextCore_eq_specIncrLast (l : Bytes) (h : ¬ ∀ b ∈ l, b = 255) :
    prefixNextCore l = some (specIncrLast l) := by
  induction l with
  | nil => exact absurd (fun b hb => absurd hb (List.not_mem_nil b)) h
  | cons b rest ih =>
    simp only [prefixNextCore, specIncrLast]
    by_cases hb : b = 255
    · subst hb
      rw [if_pos rfl, if_pos rfl]
      have hrest : ¬ ∀ c ∈ rest, c = 255 := by
        intro hall
        exact h (fun c hc => by
          rcases List.mem_cons.mp hc with h1 | h2
          · exact h1
          · exact hall c h2)
      rw [ih hrest, Option.map_some']
    · rw [if_neg hb, if_neg hb]

/-- C3: `prefix_next` coincides with the spec's reference successor
computation on every byte string, and matches the spec's three edge
examples `prefix_next(b"") = b"\x00"`, `prefix_next(b"\xff\xff") =
b"\xff\xff\x00"`, `prefix_next(b"a\xff") = b"b\x00"`. -/
theorem prefix_next_matches_reference :
    (∀ key : Bytes, prefix_next key = specPrefixNext key) ∧
    prefix_next [] = [0] ∧
    prefix_next [255, 255] = [255, 255, 0] ∧
    prefix_next [97, 255] = [98, 0] := by
  refine ⟨?_, by decide, by decide, by decide⟩
  intro key
  by_cases hall : ∀ b ∈ key, b = 255
  · rw [prefix_next_allFF key hall]
    unfold specPrefixNext
    by_cases hemp : key = []
    · subst hemp
      rw [if_pos rfl]
      rfl
    · rw [if_neg hemp, if_pos hall]
  · have hemp : key ≠ [] := by
      intro h
      subst h
      exact hall (fun b hb => absurd hb (List.not_mem_nil b))
    have hrev : ¬ ∀ b ∈ key.reverse, b = 255 := fun hr =>
      hall (fun b hb => hr b (List.mem_reverse.mpr hb))
    unfold prefix_next specPrefixNext
    rw [prefixNextCore_eq_specIncrLast key.reverse hrev, if_neg hemp, if_neg hall]

/-! ## RPN expression primitives
(src/src/coprocessor/dag/rpn_expr/impl_op.rs and impl_compare.rs)

`i64` is embedded as `Int` (the functions only match on zero and compare,
so no wrapping arises).  `EvalContext` and `RpnFnCallPayload` carry the
evaluation flags and the call's field-type information; every function
below ignores them, exactly as the `_ctx` / `_payload` underscores in the
source do. -/

/-- Evaluation context (`EvalContext`): time-zone offset and flags. -/
structure EvalContext where
  timeZoneOffset : Int
  flags : Nat
deriving Repr, DecidableEq

/-- Call payload (`RpnFnCallPayload`).  Modelled from the spec: the payload
type itself lives in rpn_expr/types.rs, which is not part of the sources;
per the spec's open question (i) it carries the arguments' field-type flags,
including the unsigned flag, one entry per argument. -/
structure RpnFnCallPayload where
  argFieldFlags : List Nat
deriving Repr, DecidableEq

/-- `RpnFnLogicalAnd::call` (impl_op.rs, lines 24-45).  Rust's literal
patterns `Some(0)` / `Some(_)` are rendered as a zero test on the carried
value. -/
def RpnFnLogicalAnd.call (_ctx : EvalContext) (_payload : RpnFnCallPayload)
    (arg0 arg1 : Option Int) : Except String (Option Int) :=
  .ok (match arg0 with
    | none =>
      match arg1 with
      | some y => if y = 0 then some 0 else none
      | none => none
    | some x =>
      if x = 0 then some 0
      else
        match arg1 with
        | none => none
        | some y => if y = 0 then some 0 else some 1)

/-- `RpnFnLogicalOr::call` (impl_op.rs, lines 52-75). -/
def RpnFnLogicalOr.call (_ctx : EvalContext) (_payload : RpnFnCallPayload)
    (arg0 arg1 : Option Int) : Except String (Option Int) :=
  .ok (match arg0 with
    | none =>
      match arg1 with
      | none => none
      | some y => if y = 0 then none else some 1
    | some x =>
      if x = 0 then
        match arg1 with
        | none => none
        | some y => if y = 0 then some 0 else some 1
      else some 1)

/-- `RpnFnEQInt::call` (impl_compare.rs, lines 46-60). -/
def RpnFnEQInt.call (_ctx : EvalContext) (_payload : RpnFnCallPayload)
    (arg0 arg1 : Option Int) : Except String (Option Int) :=
  .ok (match arg0, arg1 with
    | some a, some b => some (if a = b then 1 else 0)
    | _, _ => none)

/-- `RpnFnGTInt::call` (impl_compare.rs, lines 62-81). -/
def RpnFnGTInt.call (_ctx : EvalContext) (_payload : RpnFnCallPayload)
    (arg0 arg1 : Option Int) : Except String (Option Int) :=
  .ok (match arg0, arg1 with
    | some a, some b => some (if a > b then 1 else 0)
    | _, _ => none)

/-- `RpnFnLTInt::call` (impl_compare.rs, lines 83-102). -/
def RpnFnLTInt.call (_ctx : EvalContext) (_payload : RpnFnCallPayload)
    (arg0 arg1 : Option Int) : Except String (Option Int) :=
  .ok (match arg0, arg1 with
    | some a, some b => some (if a < b then 1 else 0)
    | _, _ => none)

/-- The claim's description of three-valued AND: `Some(0)` dominates `None`,
two non-zero `Some`s give `Some(1)`, everything else is `None`. -/
def claimLogicalAnd (a b : Option Int) : Option Int :=
  if a = some 0 ∨ b = some 0 then some 0
  else if a ≠ none ∧ b ≠ none then some 1
  else none

/-- The claim's description of three-valued OR: a non-zero `Some` dominates
`None`, two `Some(0)`s give `Some(0)`, everything else is `None`. -/
def claimLogicalOr (a b : Option Int) : Option Int :=
  if (a ≠ none ∧ a ≠ some 0) ∨ (b ≠ none ∧ b ≠ some 0) then some 1
  else if a = some 0 ∧ b = some 0 then some 0
  else none

/-- C9: `RpnFnLogicalAnd::call` and `RpnFnLogicalOr::call` implement exactly
the three-valued logic of the claim — a `Some(0)` (resp. non-zero `Some`)
argument forces `Some(0)` (resp. `Some(1)`) even when the other argument is
`None` — and neither function ever returns an error. -/
theorem logical_and_or_three_valued (ctx : EvalContext) (payload : RpnFnCallPayload)
    (a b : Option Int) :
    RpnFnLogicalAnd.call ctx payload a b = .ok (claimLogicalAnd a b) ∧
    RpnFnLogicalOr.call ctx payload a b = .ok (claimLogicalOr a b) := by
  constructor
  · rcases a with _ | x
    · rcases b with _ | y
      · rfl
      · by_cases hy : y = 0 <;>
          simp [RpnFnLogicalAnd.call, claimLogicalAnd, hy]
    · rcases b with _ | y
      · by_cases hx : x = 0 <;>
          simp [RpnFnLogicalAnd.call, claimLogicalAnd, hx]
      · by_cases hx : x = 0 <;> by_cases hy : y = 0 <;>
          simp [RpnFnLogicalAnd.call, claimLogicalAnd, hx, hy]
  · rcases a with _ | x
    · rcases b with _ | y
      · rfl
      · by_cases hy : y = 0 <;>
          simp [RpnFnLogicalOr.call, claimLogicalOr, hy]
    · rcases b with _ | y
      · by_cases hx : x = 0 <;>
          simp [RpnFnLogicalOr.call, claimLogicalOr, hx]
      · by_cases hx : x = 0 <;> by_cases hy : y = 0 <;>
          simp [RpnFnLogicalOr.call, claimLogicalOr, hx, hy]

/-- C10: the integer comparison primitives return `None` when either side is
`None`, otherwise compare the two raw `i64` values as signed integers; the
result never depends on the context or the payload (so the unsigned flag is
never consulted), and no error is ever returned. -/
theorem int_compare_raw_signed (ctx ctx2 : EvalContext)
    (payload payload2 : RpnFnCallPayload) (a b : Option Int) :
    RpnFnEQInt.call ctx payload a b = RpnFnEQInt.call ctx2 payload2 a b ∧
    RpnFnGTInt.call ctx payload a b = RpnFnGTInt.call ctx2 payload2 a b ∧
    RpnFnLTInt.call ctx payload a b = RpnFnLTInt.call ctx2 payload2 a b ∧
    RpnFnEQInt.call ctx payload a b =
      .ok (match a, b with
        | some x, some y => some (if x = y then 1 else 0)
        | _, _ => none) ∧
    RpnFnGTInt.call ctx payload a b =
      .ok (match a, b with
        | some x, some y => some (if x > y then 1 else 0)
        | _, _ => none) ∧
    RpnFnLTInt.call ctx payload a b =
      .ok (match a, b with
        | some x, some y => some (if x < y then 1 else 0)
        | _, _ => none) :=
  ⟨rfl, rfl, rfl, rfl, rfl, rfl⟩

/-! ## Key encoding layer: the temporary timestamp guard
(src/components/keys/src/v2.rs, lines 162-234)

A physical key is its owned byte vector (`BasicPhysicalKey(Vec<u8>)`).
`append_ts` writes the timestamp with `write_u64_desc`, i.e. the big-endian
bytes of the bitwise complement of the `u64`; `shrink_ts` truncates the last
8 bytes; `with_ts_temporarily` wraps the two in a guard whose `Drop` calls
`shrink_ts` on every exit path.  The guard is embedded as a structure whose
construction is `append_ts` and whose single release function is the `Drop`
body (the Rust compiler invokes it on every exit path, early or not). -/

/-- The 64-bit descending encoding written by `write_u64_desc`: big-endian
bytes of the bitwise complement of `ts` (as a `u64`, hence the `% 2^64`). -/
def encode_desc_u64 (ts : Nat) : Bytes :=
  let v := 18446744073709551615 - ts % 18446744073709551616
  [v / 256 ^ 7 % 256, v / 256 ^ 6 % 256, v / 256 ^ 5 % 256, v / 256 ^ 4 % 256,
   v / 256 ^ 3 % 256, v / 256 ^ 2 % 256, v / 256 % 256, v % 256]

/-- `PhysicalKey::append_ts` (v2.rs, lines 162-164). -/
def append_ts (k : Bytes) (ts : Nat) : Bytes := k ++ encode_desc_u64 ts

/-- `PhysicalKey::shrink_ts` (v2.rs, lines 167-171): truncate to `len - 8`. -/
def shrink_ts (k : Bytes) : Bytes := k.take (k.length - 8)

/-- The guard returned by `with_ts_temporarily` (v2.rs, lines 208-234),
holding the key with the timestamp suffix attached. -/
structure PhysicalKeyTsGuard where
  key : Bytes
deriving Repr, DecidableEq

/-- `PhysicalKeyTsGuard::new`: appends the timestamp on construction. -/
def PhysicalKeyTsGuard.new (k : Bytes) (ts : Nat) : PhysicalKeyTsGuard :=
  ⟨append_ts k ts⟩

/-- The guard's `Drop` implementation: `shrink_ts` on release. -/
def PhysicalKeyTsGuard.release (g : PhysicalKeyTsGuard) : Bytes :=
  shrink_ts g.key

/-- `PhysicalKey::with_ts_temporarily` (v2.rs, lines 174-176). -/
def with_ts_temporarily (k : Bytes) (ts : Nat) : PhysicalKeyTsGuard :=
  PhysicalKeyTsGuard.new k ts

/-- C4: `with_ts_temporarily t` appends exactly the 8 bytes of the descending
encoding of `t` for the guard's lifetime, and releasing the guard — the one
`Drop` body, which Rust runs on every exit path — truncates exactly those 8
bytes, leaving the key bit-identical to its state before the call. -/
theorem with_ts_temporarily_roundtrip (k : Bytes) (t : Nat) :
    (with_ts_temporarily k t).key = k ++ encode_desc_u64 t ∧
    (encode_desc_u64 t).length = 8 ∧
    (with_ts_temporarily k t).release = k := by
  refine ⟨rfl, rfl, ?_⟩
  show shrink_ts (k ++ encode_desc_u64 t) = k
  unfold shrink_ts
  have hlen : (k ++ encode_desc_u64 t).length = k.length + 8 := by
    simp [encode_desc_u64]
  rw [hlen]
  simp only [Nat.add_sub_cancel]
  exact List.take_left k (encode_desc_u64 t)

/-! ## grpcworker scheduler / runner (src/src/grpcworker/mod.rs)

`mod.rs` contains `schedule_task` (lines 72-84) and `Runnable::run`
(lines 116-140); the task/subtask types live in `task/`, which is not among
the sources, so `Task`, `Value` and `SubTaskResult` are modelled from the
spec (sections 3 and 4.5): a task carries a one-shot callback, an optional
current subtask and a priority; a subtask reports `Continue(next)` or
`Finish(result)` through its sink exactly once. -/

/-- `Priority` (spec section 3: ReadCritical | ReadHigh | ReadNormal | ReadLow). -/
inductive Priority
  | readCritical
  | readHigh
  | readNormal
  | readLow
deriving Repr, DecidableEq

/-- Modelled from the spec: terminal `Value` of a task (`Value::Storage`). -/
inductive GValue
  | storage (v : Option Bytes)
deriving Repr, DecidableEq

/-- The error kinds of `grpcworker::Error` that terminate a task. -/
inductive GrpcError
  | schedulerBusy
  | schedulerStopped
  | poolBusy
  | other
deriving Repr, DecidableEq

/-- The result a callback receives (`task::Result`). -/
abbrev GResult := Except GrpcError GValue

/-- Modelled from the spec: `SubTaskResult` is `Continue(next_subtask)` or
`Finish(result)`. -/
inductive SubTaskResult
  | cont
  | finish (r : GResult)

/-- A worker thread pool as the runner observes it: its lock-free
in-flight task counter. -/
structure ThreadPoolState where
  taskCount : Nat
deriving Repr, DecidableEq

/-- `ThreadPool::get_task_count`. -/
def ThreadPoolState.get_task_count (p : ThreadPoolState) : Nat := p.taskCount

/-- `Runner` state: the four pools and the admission ceiling. -/
structure RunnerState where
  poolReadCritical : ThreadPoolState
  poolReadHigh : ThreadPoolState
  poolReadNormal : ThreadPoolState
  poolReadLow : ThreadPoolState
  maxReadTasks : Nat
deriving Repr, DecidableEq

/-- `Runner::get_pool_by_priority` (mod.rs, lines 99-106). -/
def RunnerState.get_pool_by_priority (r : RunnerState) : Priority → ThreadPoolState
  | .readCritical => r.poolReadCritical
  | .readHigh => r.poolReadHigh
  | .readNormal => r.poolReadNormal
  | .readLow => r.poolReadLow

/-- The body of `Runner::is_pool_busy` (mod.rs, lines 110-112):
`pool.get_task_count() >= self.max_read_tasks`. -/
def poolBusyCheck (maxReadTasks : Nat) (pool : ThreadPoolState) : Bool :=
  decide (pool.get_task_count ≥ maxReadTasks)

/-- `Runner::is_pool_busy`. -/
def RunnerState.is_pool_busy (r : RunnerState) (pool : ThreadPoolState) : Bool :=
  poolBusyCheck r.maxReadTasks pool

/-- A task as scheduled (spec section 3); the callback and the subtask body
are represented by the execution semantics, not stored data. -/
structure Task where
  priority : Priority
deriving Repr, DecidableEq

/-- The immediate effect of `Runner::run` on a dequeued task: either the
callback fires with an error and nothing reaches a pool, or a closure
running the current subtask is submitted to the selected pool. -/
inductive RunOutcome
  | rejected (e : GrpcError)
  | submitted (p : Priority)
deriving Repr, DecidableEq

/-- `Runner::run` (mod.rs, lines 116-140), up to the pool submission: check
admission on the pool selected by the task's priority; on busy, fire the
callback with `PoolBusy` and return; otherwise submit the subtask closure
to that pool. -/
def Runner.run (r : RunnerState) (t : Task) : RunOutcome :=
  let pool := r.get_pool_by_priority t.priority
  if r.is_pool_busy pool then .rejected .poolBusy
  else .submitted t.priority

/-- C5: `Runner::run` fires the callback with `PoolBusy` and never submits
the subtask when the selected pool's in-flight count is at least
`max_read_tasks`; otherwise it submits the subtask closure to exactly the
pool selected by the task's priority. -/
theorem runner_admission_control (r : RunnerState) (t : Task) :
    ((r.get_pool_by_priority t.priority).get_task_count ≥ r.maxReadTasks →
      Runner.run r t = .rejected .poolBusy) ∧
    ((r.get_pool_by_priority t.priority).get_task_count < r.maxReadTasks →
      Runner.run r t = .submitted t.priority) := by
  constructor
  · intro h
    unfold Runner.run RunnerState.is_pool_busy poolBusyCheck
    rw [if_pos (by simpa using h)]
  · intro h
    unfold Runner.run RunnerState.is_pool_busy poolBusyCheck
    rw [if_neg (by simp; omega)]

/-- Witness for C5: a busy pool (count 4 ≥ cap 4) rejects with `PoolBusy`;
an idle pool (count 0 < cap 4) receives the submission. -/
theorem runner_admission_control_witness :
    Runner.run ⟨⟨4⟩, ⟨0⟩, ⟨0⟩, ⟨0⟩, 4⟩ ⟨.readCritical⟩ = .rejected .poolBusy ∧
    Runner.run ⟨⟨4⟩, ⟨0⟩, ⟨0⟩, ⟨0⟩, 4⟩ ⟨.readHigh⟩ = .submitted .readHigh :=
  ⟨(runner_admission_control ⟨⟨4⟩, ⟨0⟩, ⟨0⟩, ⟨0⟩, 4⟩ ⟨.readCritical⟩).1 (by decide),
   (runner_admission_control ⟨⟨4⟩, ⟨0⟩, ⟨0⟩, ⟨0⟩, 4⟩ ⟨.readHigh⟩).2 (by decide)⟩

/-- The two rejections of `Scheduler::schedule` (`ScheduleError::Full` /
`ScheduleError::Stopped`); acceptance is `none` in the hop environment. -/
inductive ScheduleErrorKind
  | full
  | stopped
deriving Repr, DecidableEq

/-- The environment's choices for one scheduling hop of a task: the outcome
of `scheduler.schedule`, the in-flight count the runner observes on the
selected pool, and the verdict the subtask reports through its continuation
sink (modelled from the spec: each subtask invokes its sink exactly once
with `Continue` or `Finish`). -/
structure HopEnv where
  sched : Option ScheduleErrorKind
  poolCount : Nat
  verdict : SubTaskResult

/-- One task execution through `schedule_task` (mod.rs, lines 72-84) and
`Runner::run` (lines 116-140), driven by a finite trace of environment
choices; one hop is consumed per pass through the scheduler.  The returned
list collects every callback invocation in order; `none` means the trace is
too short to reach a terminal path.  The branches mirror the source:
`Full`/`Stopped` from `schedule` fire the callback with `SchedulerBusy` /
`SchedulerStopped`; an admitted task whose pool is busy fires `PoolBusy`
and is dropped; otherwise the subtask runs and its sink verdict either
fires the callback with the finish result or stores the next subtask and
re-enters `schedule_task`. -/
def execTask (maxReadTasks : Nat) : List HopEnv → Option (List GResult)
  | [] => none
  | hop :: rest =>
    match hop.sched with
    | some .full => some [.error .schedulerBusy]
    | some .stopped => some [.error .schedulerStopped]
    | none =>
      if poolBusyCheck maxReadTasks ⟨hop.poolCount⟩ = true then
        some [.error .poolBusy]
      else
        match hop.verdict with
        | .finish r => some [r]
        | .cont => execTask maxReadTasks rest

/-- C1: over every complete execution the callback fires exactly once, and
each of the four terminal paths fires it with its advertised outcome:
`Finish(result)` delivers the result, a `Full` scheduler rejection delivers
`SchedulerBusy`, a `Stopped` rejection delivers `SchedulerStopped`, and a
pool-admission rejection delivers `PoolBusy`. -/
theorem grpcworker_callback_exactly_once :
    (∀ (maxReadTasks : Nat) (trace : List HopEnv) (cbs : List GResult),
      execTask maxReadTasks trace = some cbs → cbs.length = 1) ∧
    (∀ (m tc : Nat) (v : SubTaskResult) (rest : List HopEnv),
      execTask m (⟨some .full, tc, v⟩ :: rest) = some [.error .schedulerBusy]) ∧
    (∀ (m tc : Nat) (v : SubTaskResult) (rest : List HopEnv),
      execTask m (⟨some .stopped, tc, v⟩ :: rest) = some [.error .schedulerStopped]) ∧
    (∀ (m tc : Nat) (v : SubTaskResult) (rest : List HopEnv), m ≤ tc →
      execTask m (⟨none, tc, v⟩ :: rest) = some [.error .poolBusy]) ∧
    (∀ (m tc : Nat) (r : GResult) (rest : List HopEnv), tc < m →
      execTask m (⟨none, tc, .finish r⟩ :: rest) = some [r]) := by
  refine ⟨?_, ?_, ?_, ?_, ?_⟩
  · intro m trace
    induction trace with
    | nil =>
      intro cbs h
      exact Option.noConfusion h
    | cons hop rest ih =>
      intro cbs hex
      rcases hop with ⟨sched, tc, v⟩
      rcases sched with _ | sk
      · simp only [execTask] at hex
        by_cases hb : poolBusyCheck m ⟨tc⟩ = true
        · rw [if_pos hb] at hex
          rw [← Option.some_inj.mp hex]
          rfl
        · rw [if_neg hb] at hex
          rcases v with _ | r
          · exact ih cbs hex
          · rw [← Option.some_inj.mp hex]
            rfl
      · rcases sk
        · simp only [execTask] at hex
          rw [← Option.some_inj.mp hex]
          rfl
        · simp only [execTask] at hex
          rw [← Option.some_inj.mp hex]
          rfl
  · intro m tc v rest
    rfl
  · intro m tc v rest
    rfl
  · intro m tc v rest h
    simp only [execTask]
    rw [if_pos]
    simp only [poolBusyCheck, ThreadPoolState.get_task_count, decide_eq_true_eq]
    exact h
  · intro m tc r rest h
    simp only [execTask]
    rw [if_neg]
    simp only [poolBusyCheck, ThreadPoolState.get_task_count, decide_eq_true_eq]
    omega

/-- Witness for C1: a two-hop execution (one continuation, then a finish)
invokes the callback exactly once, and a concrete pool-busy hop delivers
`PoolBusy`. -/
theorem grpcworker_callback_exactly_once_witness :
    ([Except.ok (GValue.storage none)] : List GResult).length = 1 ∧
    execTask 4 [⟨none, 9, SubTaskResult.cont⟩] = some [.error .poolBusy] :=
  ⟨grpcworker_callback_exactly_once.1 4
      [⟨none, 0, SubTaskResult.cont⟩, ⟨none, 0, SubTaskResult.finish (.ok (.storage none))⟩]
      [Except.ok (GValue.storage none)] (by rfl),
   grpcworker_callback_exactly_once.2.2.2.1 4 9 SubTaskResult.cont [] (by omega)⟩

/-! ## Storage adapter (src/src/coprocessor/dag/storage_impl.rs)

`Statistics` (the spec's opaque statistics-delta collector) is embedded as
its three per-column-family counter groups, each collapsed to one counter;
`Statistics::add` adds field-wise.  A scanner carries its since-last-call
counters; `take_statistics` returns them and resets them to zero.  The
store carries the incremental-get pending counters taken by
`incremental_get_take_statistics`. -/

/-- `storage::Statistics`: one counter group per column family. -/
structure Statistics where
  lock : Nat
  write : Nat
  data : Nat
deriving Repr, DecidableEq

/-- `Statistics::default()`. -/
def Statistics.default : Statistics := ⟨0, 0, 0⟩

/-- `Statistics::add`: field-wise accumulation. -/
def Statistics.add (s other : Statistics) : Statistics :=
  ⟨s.lock + other.lock, s.write + other.write, s.data + other.data⟩

/-- A scanner as the adapter sees it: its pending since-last-call counters. -/
structure ScannerState where
  pending : Statistics
deriving Repr, DecidableEq

/-- `Scanner::take_statistics`: return the pending counters and reset them. -/
def ScannerState.take_statistics (s : ScannerState) : Statistics × ScannerState :=
  (s.pending, ⟨Statistics.default⟩)

/-- The store as the adapter sees it: the pending counters of the
incremental-get path. -/
structure StoreState where
  incGetPending : Statistics
deriving Repr, DecidableEq

/-- `Store::incremental_get_take_statistics`. -/
def StoreState.incremental_get_take_statistics (s : StoreState) :
    Statistics × StoreState :=
  (s.incGetPending, ⟨Statistics.default⟩)

/-- `TiKVStorage`: the store, an optional scanner, an optional range
scanner, and the backlog of counters folded out of replaced scanners. -/
structure TiKVStorage where
  store : StoreState
  scanner : Option ScannerState
  rangeScanner : Option ScannerState
  cfStatsBacklog : Statistics
deriving Repr, DecidableEq

/-- `TiKVStorage::begin_scan` (storage_impl.rs, lines 38-57): fold a prior
scanner's delta into the backlog, then install a fresh scanner over the new
range (`store.scanner(..)` starts with zero counters; the range bounds and
flags do not affect the statistics bookkeeping). -/
def TiKVStorage.begin_scan (s : TiKVStorage) (_isBackward _isKeyOnly : Bool)
    (_lower _upper : Bytes) : TiKVStorage :=
  let backlog :=
    match s.scanner with
    | some sc => s.cfStatsBacklog.add (sc.take_statistics).1
    | none => s.cfStatsBacklog
  { s with cfStatsBacklog := backlog, scanner := some ⟨Statistics.default⟩ }

/-- `TiKVStorage::collect_statistics` (storage_impl.rs, lines 102-110):
fold the incremental-get delta into the backlog, fold a live scanner's
delta (resetting it, not destroying it), add the backlog into `dest`, and
reset the backlog. -/
def TiKVStorage.collect_statistics (s : TiKVStorage) (dest : Statistics) :
    TiKVStorage × Statistics :=
  let (incDelta, store1) := s.store.incremental_get_take_statistics
  let backlog1 := s.cfStatsBacklog.add incDelta
  let (backlog2, scanner1) :=
    match s.scanner with
    | some sc =>
      let (delta, sc1) := sc.take_statistics
      (backlog1.add delta, some sc1)
    | none => (backlog1, none)
  let dest1 := dest.add backlog2
  ({ s with store := store1, scanner := scanner1,
            cfStatsBacklog := Statistics.default }, dest1)

/-- C6: every statistic is counted exactly once on the adapter —
`begin_scan` folds the replaced scanner's delta into the backlog and
installs a fresh scanner; `collect_statistics` adds the backlog, the
incremental-get delta and any live scanner's delta into `dest`, resets all
of them, and keeps the scanner alive; consequently a second consecutive
`collect_statistics` on the (quiesced) adapter adds zero to every counter
of its destination. -/
theorem storage_statistics_counted_once (s : TiKVStorage) (dest d2 : Statistics)
    (isBackward isKeyOnly : Bool) (lower upper : Bytes) :
    ((s.begin_scan isBackward isKeyOnly lower upper).cfStatsBacklog =
        (match s.scanner with
         | some sc => s.cfStatsBacklog.add sc.pending
         | none => s.cfStatsBacklog) ∧
      (s.begin_scan isBackward isKeyOnly lower upper).scanner =
        some ⟨Statistics.default⟩) ∧
    ((s.collect_statistics dest).2 =
        dest.add ((s.cfStatsBacklog.add s.store.incGetPending).add
          (match s.scanner with
           | some sc => sc.pending
           | none => Statistics.default)) ∧
      (s.collect_statistics dest).1.cfStatsBacklog = Statistics.default ∧
      (s.collect_statistics dest).1.store.incGetPending = Statistics.default ∧
      (s.collect_statistics dest).1.scanner =
        s.scanner.map (fun _ => ⟨Statistics.default⟩)) ∧
    ((s.collect_statistics dest).1.collect_statistics d2).2 = d2 := by
  rcases s with ⟨⟨inc⟩, scanner, rscanner, backlog⟩
  rcases scanner with _ | ⟨pend⟩
  · refine ⟨⟨rfl, rfl⟩, ⟨?_, rfl, rfl, rfl⟩, ?_⟩
    · simp [TiKVStorage.collect_statistics, StoreState.incremental_get_take_statistics,
        Statistics.add, Statistics.default]
    · simp [TiKVStorage.collect_statistics, StoreState.incremental_get_take_statistics,
        ScannerState.take_statistics, Statistics.add, Statistics.default]
  · refine ⟨⟨?_, rfl⟩, ⟨?_, rfl, rfl, rfl⟩, ?_⟩
    · simp [TiKVStorage.begin_scan, ScannerState.take_statistics]
    · simp [TiKVStorage.collect_statistics, StoreState.incremental_get_take_statistics,
        ScannerState.take_statistics, Statistics.add, Statistics.default]
    · simp [TiKVStorage.collect_statistics, StoreState.incremental_get_take_statistics,
        ScannerState.take_statistics, Statistics.add, Statistics.default]

/-! ## DAG request handler (src/src/coprocessor/dag/dag.rs)

`DAGContext::handle_request` drives the executor in a loop.  The executor
(an external collaborator per the spec) is embedded as a script of events:
each `next()` either yields a row (also setting the executor's last-key
register), reports end-of-scan (an exhausted script), or fails.  Column
inflation (`inflate_cols`) depends on the column codec, which the spec
scopes out; it is carried as an opaque fallible function on rows whose
error propagates through `?` exactly as in the source. -/

/-- `coprocessor::Error` kinds distinguished by the handler. -/
inductive CopError
  | other (msg : String)
  | outdated
  | locked
  | region
  | full
deriving Repr, DecidableEq

/-- The error message rendered by `to_pb_error` / `Display` (both carry the
error text; the protobuf wrapper is opaque wire codec). -/
def errorMessage : CopError → String
  | .other msg => msg
  | .outdated => "request outdated"
  | .locked => "key is locked"
  | .region => "region error"
  | .full => "scheduler full"

/-- A `tipb` chunk: its encoded `rows_data` buffer. -/
structure Chunk where
  rowsData : Bytes
deriving Repr, DecidableEq

/-- `SelectResponse`: the chunk list and the optional in-band error. -/
structure SelectResponse where
  chunks : List Chunk
  error : Option String
deriving Repr, DecidableEq

/-- `coprocessor::KeyRange` with `set_start` / `set_end`. -/
structure KeyRange where
  rangeStart : Bytes
  rangeEnd : Bytes
deriving Repr, DecidableEq

/-- `coppb::Response`: the encoded `SelectResponse` body (`set_data`, the
encoding itself is opaque wire codec, so the body is kept structured), the
`other_error` field, and the optional scanned `KeyRange`. -/
structure Response where
  data : SelectResponse
  otherError : Option String
  range : Option KeyRange
deriving Repr, DecidableEq

/-- An executor row: its encoded value buffer and its handle. -/
structure Row where
  data : Bytes
  handle : Int
deriving Repr, DecidableEq

/-- One executor `next()` outcome driven by the environment: a yielded row
(with the raw key recorded into the executor's last-key register), or an
error.  End-of-scan (`Ok(None)`) is an exhausted script. -/
inductive ExecEvent
  | row (data : Bytes) (handle : Int) (key : Option Bytes)
  | error (e : CopError)

/-- Executor state: the remaining script and the last-key register that
`take_last_key` moves out. -/
structure ExecState where
  script : List ExecEvent
  lastKey : Option Bytes

/-- `DAGContext` as the loop sees it: aggregation flag, the request
context's deadline verdict (`check_if_outdated`, modelled from the spec as
a fixed soft-cancellation flag), the two chunking limits, the buffered
chunks, and the opaque column-inflation function. -/
structure DAGContext where
  hasAggr : Bool
  outdated : Bool
  batchRowLimit : Nat
  chunksPerStream : Nat
  chunks : List Chunk
  inflate : Row → Except CopError Bytes

/-- `DAGContext::make_response` (dag.rs, lines 129-160): package the drained
chunks, then normalize the scanned range; `none` models the
`unreachable!()` panic of the `(None, Some)` arm. -/
def make_response (chunks : List Chunk) (remain : Bool)
    (startKey endKey : Option Bytes) : Option (Response × Bool) :=
  let resp : Response :=
    { data := { chunks := chunks, error := none }, otherError := none, range := none }
  match startKey, endKey with
  | some s, some e =>
    if lexLt e s = true then
      some ({ resp with range := some ⟨e, prefix_next s⟩ }, remain)
    else
      some ({ resp with range := some ⟨s, prefix_next e⟩ }, remain)
  | some s, none =>
    some ({ resp with range := some ⟨s, prefix_next s⟩ }, remain)
  | none, none => some (resp, remain)
  | none, some _ => none

/-- The error response built in the `Err(e)` arm of `handle_request`
(dag.rs, lines 115-121): a fresh `SelectResponse` carrying the error
in-band, plus the `other_error` field. -/
def errResponse (e : CopError) : Response :=
  { data := { chunks := [], error := some (errorMessage e) },
    otherError := some (errorMessage e),
    range := none }

/-- Append encoded row data to the last buffered chunk
(`chunks.last_mut().unwrap().mut_rows_data().extend_from_slice`); the
empty-list case is unreachable because the loop pushes a chunk first. -/
def appendToLastChunk : List Chunk → Bytes → List Chunk
  | [], _ => []
  | [c], d => [⟨c.rowsData ++ d⟩]
  | c :: rest, d => c :: appendToLastChunk rest d

/-- The loop of `DAGContext::handle_request` (dag.rs, lines 75-127), one
iteration per executor event.  Arguments after the context mirror the
loop-carried state: the executor script, the executor's last-key register,
`record_cnt`, `first_row` and `start_key`.  The result is `none` when the
source would panic (`unreachable!()` in `make_response`), otherwise the
`Result<(Response, bool)>` of the source. -/
def handleLoop (streaming : Bool) :
    DAGContext → List ExecEvent → Option Bytes → Nat → Bool → Option Bytes →
    Option (Except CopError (Response × Bool))
  | ctx, [], lastKey, _recordCnt, _firstRow, startKey =>
    match make_response ctx.chunks false startKey lastKey with
    | some rb => some (.ok rb)
    | none => none
  | _ctx, .error e :: _, _, _, _, _ =>
    match e with
    | .other msg => some (.ok (errResponse (.other msg), false))
    | .outdated => some (.error .outdated)
    | .locked => some (.error .locked)
    | .region => some (.error .region)
    | .full => some (.error .full)
  | ctx, .row d hdl k :: rest, _lastKey, recordCnt, firstRow, startKey =>
    if ctx.outdated then some (.error .outdated)
    else
      let (firstRow1, startKey1, lastKey1) :=
        if firstRow then (false, k, (none : Option Bytes))
        else (firstRow, startKey, k)
      let flushAndPush := ctx.chunks.isEmpty || decide (ctx.batchRowLimit ≤ recordCnt)
      let doStream :=
        flushAndPush && (streaming && decide (ctx.chunksPerStream ≤ ctx.chunks.length))
      let streamResult :=
        if doStream then some (make_response ctx.chunks true startKey1 lastKey1)
        else none
      let chunksDrained := if doStream then [] else ctx.chunks
      let startKey2 := if doStream then none else startKey1
      let lastKey2 := if doStream then none else lastKey1
      let chunks1 := if flushAndPush then chunksDrained ++ [⟨[]⟩] else chunksDrained
      let recordCnt1 := (if flushAndPush then 0 else recordCnt) + 1
      match (if ctx.hasAggr then Except.ok d else ctx.inflate ⟨d, hdl⟩) with
      | .error e => some (.error e)
      | .ok value =>
        let chunks2 := appendToLastChunk chunks1 value
        match streamResult with
        | some (some rb) => some (.ok rb)
        | some none => none
        | none =>
          handleLoop streaming { ctx with chunks := chunks2 } rest lastKey2
            recordCnt1 firstRow1 startKey2

/-- `DAGContext::handle_request` entry: `record_cnt = 0`, `first_row =
true`, `start_key = None`. -/
def handle_request (streaming : Bool) (ctx : DAGContext) (exec : ExecState) :
    Option (Except CopError (Response × Bool)) :=
  handleLoop streaming ctx exec.script exec.lastKey 0 true none

/-- C7: when the executor's `next()` returns an error inside the
`handle_request` loop — at any loop iteration, i.e. for every loop-carried
state — an `Other` error is converted into an `Ok` response whose encoded
body carries the error and whose `other_error` field is set, returned with
`remain = false`; an error of any other kind is returned as an `Err`,
failing the task. -/
theorem dag_other_error_in_band :
    (∀ (streaming : Bool) (ctx : DAGContext) (rest : List ExecEvent)
       (lk sk : Option Bytes) (rc : Nat) (fr : Bool) (msg : String),
      handleLoop streaming ctx (.error (.other msg) :: rest) lk rc fr sk =
        some (.ok ({ data := { chunks := [], error := some msg },
                     otherError := some msg,
                     range := none }, false))) ∧
    (∀ (streaming : Bool) (ctx : DAGContext) (rest : List ExecEvent)
       (lk sk : Option Bytes) (rc : Nat) (fr : Bool) (e : CopError),
      (∀ msg, e ≠ .other msg) →
      handleLoop streaming ctx (.error e :: rest) lk rc fr sk =
        some (.error e)) := by
  constructor
  · intro streaming ctx rest lk sk rc fr msg
    rfl
  · intro streaming ctx rest lk sk rc fr e hne
    cases e with
    | other msg => exact absurd rfl (hne msg)
    | outdated => rfl
    | locked => rfl
    | region => rfl
    | full => rfl

/-- Witness for C7 at a concrete non-`Other` error (`Outdated`) and a
concrete context. -/
theorem dag_other_error_in_band_witness :
    handleLoop false ⟨false, false, 10, 1, [], fun _ => .ok []⟩
        [.error .outdated] none 0 true none = some (.error .outdated) :=
  dag_other_error_in_band.2 false ⟨false, false, 10, 1, [], fun _ => .ok []⟩
    [] none none 0 true .outdated (fun _ h => CopError.noConfusion h)

/-- Lexicographic minimum of two byte strings (Rust `Vec<u8>` `Ord`). -/
def lexMin (s e : Bytes) : Bytes := if lexLt e s = true then e else s

/-- Lexicographic maximum of two byte strings (Rust `Vec<u8>` `Ord`). -/
def lexMax (s e : Bytes) : Bytes := if lexLt e s = true then s else e

/-- C8: `make_response` normalizes the scanned range — with both keys
present the emitted range is `[min, prefix_next(max)]` (so an inverted
reverse-scan pair is swapped, and an in-order pair gives
`[start, prefix_next(end)]`); with only a start key it is
`[start, prefix_next(start)]`; with neither key the response carries no
range field. -/
theorem dag_make_response_range_normalization
    (chunks : List Chunk) (remain : Bool) (s e : Bytes) :
    make_response chunks remain (some s) (some e) =
      some ({ data := { chunks := chunks, error := none },
              otherError := none,
              range := some ⟨lexMin s e, prefix_next (lexMax s e)⟩ }, remain) ∧
    make_response chunks remain (some s) none =
      some ({ data := { chunks := chunks, error := none },
              otherError := none,
              range := some ⟨s, prefix_next s⟩ }, remain) ∧
    make_response chunks remain none none =
      some ({ data := { chunks := chunks, error := none },
              otherError := none,
              range := none }, remain) := by
  refine ⟨?_, rfl, rfl⟩
  by_cases h : lexLt e s = true
  · simp only [make_response, lexMin, lexMax, if_pos h]
  · simp only [make_response, lexMin, lexMax, if_neg h]
